import Mathlib

/-!
Verification of the statistical-model evaluation core of this repository:
the MCMC model types (`Density`, `LogDensity`, `Simulation`, `MVNormal`,
`Mixture`, `MCMCModel.log_density` from `dream/model.py`) and the
Chebyshev profile synthesizer (`cheby_profile` from `refl1d/cheby.py`).

The Python source is shallowly embedded: numpy float arithmetic is modelled
by exact real arithmetic (`Real`), numpy arrays by `List`, the special
values produced by `numpy.log` at the domain edge (`-inf` at `0`, `nan`
below `0`) by `Option EReal` with `none` standing for `nan`, and Python
exceptions by `Except PyErr`.
-/

open scoped Real
open scoped Matrix

noncomputable section

/-! ## Python / numpy primitives used by the source -/

/-- Python exception classes that the embedded code can raise, plus the
`ConfigurationError` class named by the specification (which appears
nowhere in the source).  `ufuncTypeError` stands for the
`TypeError`/`AttributeError` raised by a numpy ufunc applied to an
object-dtype array whose elements do not implement the ufunc. -/
inductive PyErr where
  | typeError
  | linAlgError
  | ufuncTypeError
  | configurationError
deriving DecidableEq

/-- `-numpy.log v` on a float `v`: a real number for `v > 0`, `+inf`
(`-log 0 = -(-inf)`) at `v = 0`, and `nan` (modelled `none`) for `v < 0`.
No exception is raised in any case. -/
def numpy_neg_log (v : ℝ) : Option EReal :=
  if 0 < v then some (((-Real.log v : ℝ) : EReal))
  else if v = 0 then some ⊤
  else none

/-- Python slice `l[0::2]`: the entries at even positions, in order. -/
def sliceEven {α : Type _} : List α → List α
  | [] => []
  | [a] => [a]
  | a :: _ :: rest => a :: sliceEven rest

/-- Python slice `l[1::2]`: the entries at odd positions, in order. -/
def sliceOdd {α : Type _} (l : List α) : List α :=
  sliceEven l.tail

end

namespace Spec2Proof

noncomputable section

/-! ## Embedding of `refl1d/cheby.py` (`cheby_profile`) -/

/-- Chebyshev polynomial of the first kind, `T 0 = 1`, `T 1 = id`,
`T (n+2) x = 2 x T (n+1) x - T n x`.  Used to state what the Clenshaw
recursion in `cheby_profile` computes. -/
def chebT : ℕ → ℝ → ℝ
  | 0, _ => 1
  | 1, x => x
  | n + 2, x => 2 * x * chebT (n + 1) x - chebT n x

/-- One step of the loop `d, dd = y*d + (c_j - dd), d` in `cheby_profile`. -/
def crenshawStep (y : ℝ) (p : ℝ × ℝ) (cj : ℝ) : ℝ × ℝ :=
  (y * p.1 + (cj - p.2), p.1)

/-- The loop `for c_j in c[:0:-1]` of `cheby_profile` folded over the
reversed tail of the coefficient list, starting from `d = dd = 0`. -/
def crenshawLoop (y : ℝ) (c : List ℝ) : ℝ × ℝ :=
  (c.drop 1).reverse.foldl (crenshawStep y) (0, 0)

/-- Scalar Crenshaw/Clenshaw evaluation of `cheby_profile` at one
coordinate `t`: `y = 4*t - 2`, run the loop, then
`y*(0.5*d) + (0.5*c[0] - dd)`. -/
def crenshawPoint (c : List ℝ) (t : ℝ) : ℝ :=
  let y := 4 * t - 2
  let s := crenshawLoop y c
  y * (0.5 * s.1) + (0.5 * c.headD 0 - s.2)

/-- `numpy.fft.fft` of the sequence `y` of length `n`, at frequency `j`:
`sum_p y_p exp(-2*pi*I*j*p/n)` (numpy's forward transform, unnormalized). -/
def npFFT (n : ℕ) (y : ℕ → ℂ) (j : ℕ) : ℂ :=
  ∑ p ∈ Finset.range n, y p * Complex.exp (-(2 * π * j * p / n : ℝ) * Complex.I)

/-- The reordering `numpy.hstack((c[0::2], c[1::2][::-1]))` in the
`'interp'` branch of `cheby_profile`. -/
def dctReorder (c : List ℝ) : List ℝ :=
  sliceEven c ++ (sliceOdd c).reverse

/-- The `'interp'` branch of `cheby_profile`:
`c = (2./n) * real(fft(y)*w)` with `w = exp((-0.5j*pi/n)*arange(n))` and
`y` the reordered control values. -/
def interpCoeffs (control : List ℝ) : List ℝ :=
  let n := control.length
  (List.range n).map fun j =>
    (2 / (n : ℝ)) *
      (npFFT n (fun p => ((dctReorder control).getD p 0 : ℂ)) j *
        Complex.exp (-(π * j / (2 * n) : ℝ) * Complex.I)).re

/-- Embedding of `cheby_profile(control, t, method)`: returns `0*t` when
there are no control values, derives coefficients by the DCT formula when
`method == 'interp'` (any other method tag uses the control values as
coefficients directly), then evaluates the Crenshaw recursion at every
coordinate of `t`. -/
def cheby_profile (control : List ℝ) (t : List ℝ) (method : String) : List ℝ :=
  if control.length = 0 then
    t.map fun x => 0 * x
  else
    let c := if method = "interp" then interpCoeffs control else control
    t.map (crenshawPoint c)

/-- The normalized coordinates `t_k = z_k / L` of the Chebyshev control
points `z_k = L*(cos(pi*(k-0.5)/N)+1)/2`, `k = 1..N` (here 0-indexed:
`t_k = (cos(pi*(2k+1)/(2N)) + 1)/2` for `k = 0..N-1`). -/
def chebyNodes (n : ℕ) : List ℝ :=
  (List.range n).map fun k : ℕ => (Real.cos (π * (2 * k + 1) / (2 * n)) + 1) / 2

/-! ## Embedding of `dream/model.py` -/

/-- `Density.nllf`: `-log(self.f(x))`, where `f` is the user density
function.  A parameter vector is a `List ℝ`; the stored `bounds` and
`labels` do not enter `nllf` and are omitted from the embedding. -/
def Density.nllf (f : List ℝ → ℝ) (x : List ℝ) : Option EReal :=
  numpy_neg_log (f x)

/-- `LogDensity.nllf`: `-self.f(x)`. -/
def LogDensity.nllf (f : List ℝ → ℝ) (x : List ℝ) : ℝ :=
  -f x

/-- `MCMCModel.log_density`: `array([-self.nllf(x, RNG) for x in pop])`,
for a model whose `nllf` is a function of the parameter vector alone
(the `RNG` argument is threaded through unchanged and is not modelled). -/
def log_density (nllf : List ℝ → ℝ) (pop : List (List ℝ)) : List ℝ :=
  pop.map fun x => -nllf x

/-- A positional argument of `Mixture(*args)`: either an object exposing
an `nllf` method (a model, embedded as its nllf function), a Python
scalar, or anything else. -/
inductive MixArg where
  | model (nllf : List ℝ → ℝ)
  | scalar (w : ℝ)
  | other

/-- `hasattr(M, 'nllf')` on a `Mixture` argument. -/
def MixArg.hasNllf : MixArg → Bool
  | .model _ => true
  | _ => false

/-- `numpy.isscalar(w)` on a `Mixture` argument. -/
def MixArg.isscalar : MixArg → Bool
  | .scalar _ => true
  | _ => false

/-- The nllf function of a model argument, if it is one. -/
def MixArg.modelFn : MixArg → Option (List ℝ → ℝ)
  | .model f => some f
  | _ => none

/-- The value of a scalar argument, if it is one. -/
def MixArg.scalarVal : MixArg → Option ℝ
  | .scalar w => some w
  | _ => none

/-- The state of a constructed `Mixture`.  `self.pairs = zip(models,
weights)` is, under Python 3, a single-use lazy iterator: `consumed`
records whether it has already been drained by an `nllf` call. -/
structure MixtureState where
  pairs : List ((List ℝ → ℝ) × ℝ)
  consumed : Bool
  weight : ℝ

/-- `Mixture.__init__(*args)`: splits `args` into `models = args[::2]`
and `weights = args[1::2]`, raises `TypeError` if the length is odd, a
model lacks `nllf`, or a weight is not a scalar, and otherwise stores
`pairs = zip(models, weights)` (not yet consumed) and
`weight = sum(weights)`. -/
def Mixture_init (args : List MixArg) : Except PyErr MixtureState :=
  let models := sliceEven args
  let weights := sliceOdd args
  if args.length % 2 ≠ 0 ∨ ¬(models.all MixArg.hasNllf) ∨ ¬(weights.all MixArg.isscalar) then
    .error .typeError
  else
    .ok { pairs := List.zip (models.filterMap MixArg.modelFn) (weights.filterMap MixArg.scalarVal)
          consumed := false
          weight := (weights.filterMap MixArg.scalarVal).sum }

/-- `Mixture.nllf(x)`: `p = [w*exp(-M.nllf(x)) for M, w in self.pairs]`
then `-log(sum(p)/self.weight)`.  Iterating `self.pairs` drains it, so
the returned state has `consumed = true` and a second call sees an empty
sequence.  (The Lean convention `r/0 = 0` is visible only when
`weight = 0`, a case no theorem below relies on; numpy would produce an
`inf`/`nan` there.) -/
def Mixture_nllf (s : MixtureState) (x : List ℝ) : Option EReal × MixtureState :=
  let ps := if s.consumed then [] else s.pairs
  let p := ps.map fun Mw => Mw.2 * Real.exp (-Mw.1 x)
  (numpy_neg_log (p.sum / s.weight), { s with consumed := true })

/-- The precomputed fields of a constructed `Simulation`:
`self._offset = sum(log(wB/sigma * ones_like(data)))`, `self._cB = cB`,
`self._pow = 2/(1+gamma)`. -/
structure SimState where
  offset : ℝ
  cB : ℝ
  pw : ℝ

/-- `Simulation.__init__(f, bounds, data, sigma, gamma, labels)` for
scalar `sigma`.  `pars` stands for `exppow.exppow_pars`, whose module is
not part of this corpus; its value is irrelevant here because the `data`
handling does not depend on it.  When `data` is absent (`None`),
`ones_like(None)` yields a 0-d object-dtype array and applying the
`numpy.log` ufunc to it raises a `TypeError`/`AttributeError` (no element
has a callable `log`), so construction fails before any evaluation. -/
def Simulation_init (pars : ℝ → ℝ × ℝ) (data : Option (List ℝ)) (sigma gamma : ℝ) :
    Except PyErr SimState :=
  let cB := (pars gamma).1
  let wB := (pars gamma).2
  match data with
  | none => .error .ufuncTypeError
  | some d => .ok { offset := (d.map fun _ => Real.log (wB / sigma)).sum
                    cB := cB
                    pw := 2 / (1 + gamma) }

/-- `Simulation.nllf(x)`: `err = f(x) - data;`
`-(offset - sum(cB * abs(err/sigma)**pow))`. -/
def Simulation_nllf (f : List ℝ → List ℝ) (data : List ℝ) (sigma : ℝ) (s : SimState)
    (x : List ℝ) : ℝ :=
  let err := (f x).zipWith (· - ·) data;
  -(s.offset - (err.map fun e => s.cB * (abs (e / sigma)) ^ s.pw).sum)

/-! ### `numpy.linalg.cholesky` and `MVNormal`

`numpy.linalg.cholesky` (LAPACK `dpotrf`) computes the lower-triangular
factor column by column from the lower triangle of its argument and
raises `LinAlgError` exactly when it meets a non-positive pivot
`a_jj - sum_{k<j} l_jk^2`.  The embedding computes the same columns:
`cholNewCol` builds column `j` from the previous columns. -/

/-- Column `j` of the Cholesky factor, given the list `prev` of the
columns `0..j-1` (each a function of the row index). -/
def cholNewCol (A : ℕ → ℕ → ℝ) (prev : List (ℕ → ℝ)) (j : ℕ) : ℕ → ℝ :=
  let col : ℕ → ℕ → ℝ := fun k i => (prev.getD k fun _ => 0) i;
  let piv := A j j - ∑ k ∈ Finset.range j, col k j ^ 2;
  let ljj := Real.sqrt piv;
  fun i =>
    if i < j then 0
    else if i = j then ljj
    else (A i j - ∑ k ∈ Finset.range j, col k i * col k j) / ljj

/-- The first `m` columns of the Cholesky factor of `A`. -/
def cholCols (A : ℕ → ℕ → ℝ) : ℕ → List (ℕ → ℝ)
  | 0 => []
  | j + 1 => cholCols A j ++ [cholNewCol A (cholCols A j) j]

/-- Entry `(i, j)` of the Cholesky factor of `A`. -/
def cholEntry (A : ℕ → ℕ → ℝ) (i j : ℕ) : ℝ :=
  ((cholCols A (j + 1)).getD j fun _ => 0) i

/-- The `j`-th pivot met by the factorization:
`a_jj - sum_{k<j} l_jk^2`.  `dpotrf` fails iff some pivot is `≤ 0`. -/
def cholPivot (A : ℕ → ℕ → ℝ) (j : ℕ) : ℝ :=
  A j j - ∑ k ∈ Finset.range j, cholEntry A j k ^ 2

/-- An `n × n` matrix extended to index type `ℕ` (zero padding), to feed
the column recursion. -/
def padMat (n : ℕ) (A : Matrix (Fin n) (Fin n) ℝ) : ℕ → ℕ → ℝ := fun i j =>
  if h : i < n ∧ j < n then A ⟨i, h.1⟩ ⟨j, h.2⟩ else 0

open scoped Classical in
/-- `numpy.linalg.cholesky(A)`: the lower-triangular factor when every
pivot is positive, `none` (a raised `numpy.linalg.LinAlgError`) otherwise. -/
def np_cholesky {n : ℕ} (A : Matrix (Fin n) (Fin n) ℝ) :
    Option (Matrix (Fin n) (Fin n) ℝ) :=
  if ∀ j < n, 0 < cholPivot (padMat n A) j then
    some (Matrix.of fun i j : Fin n => cholEntry (padMat n A) i j)
  else
    none

/-- The fields a constructed `MVNormal` stores: `mu`, `sigma`,
`self._rinv = inv(r)` and
`self._C = 0.5*len(mu)*log(2*pi) + sum(diag(r))`. -/
structure MVNState (n : ℕ) where
  mu : Fin n → ℝ
  sigma : Matrix (Fin n) (Fin n) ℝ
  rinv : Matrix (Fin n) (Fin n) ℝ
  C : ℝ

/-- `MVNormal.__init__(mu, sigma)`: runs `cholesky(sigma)` eagerly; a
failed factorization raises `numpy.linalg.LinAlgError` before any field
is precomputed and before `nllf` can ever be called. -/
def MVNormal_init {n : ℕ} (mu : Fin n → ℝ) (sigma : Matrix (Fin n) (Fin n) ℝ) :
    Except PyErr (MVNState n) :=
  match np_cholesky sigma with
  | none => .error .linAlgError
  | some r => .ok { mu := mu
                    sigma := sigma
                    rinv := r⁻¹
                    C := 0.5 * n * Real.log (2 * π) + ∑ i, r i i }

/-- `MVNormal.nllf(x)`: `C + 0.5*sum(dot(x-mu, rinv)**2)`. -/
def MVNormal_nllf {n : ℕ} (s : MVNState n) (x : Fin n → ℝ) : ℝ :=
  s.C + 0.5 * ∑ j, (∑ i, (x i - s.mu i) * s.rinv i j) ^ 2

/-! ## The Crenshaw recursion computes a Chebyshev series -/

/-- The loop of `cheby_profile` as a structural recursion on the tail
coefficient list (highest coefficient processed first, like the loop). -/
def crenshawRec (y : ℝ) : List ℝ → ℝ × ℝ
  | [] => (0, 0)
  | cj :: rest => crenshawStep y (crenshawRec y rest) cj

theorem crenshawLoop_eq_rec (y : ℝ) (c : List ℝ) :
    crenshawLoop y c = crenshawRec y (c.drop 1) := by
  suffices h : ∀ L : List ℝ, L.reverse.foldl (crenshawStep y) (0, 0) = crenshawRec y L by
    simpa [crenshawLoop] using h (c.drop 1)
  intro L
  induction L with
  | nil => rfl
  | cons a L ih =>
      rw [List.reverse_cons, List.foldl_append]
      simp only [List.foldl_cons, List.foldl_nil]
      rw [ih]
      rfl

theorem chebT_two_step (s : ℕ) (x : ℝ) :
    chebT (s + 2) x = 2 * x * chebT (s + 1) x - chebT s x := rfl

theorem crenshawRec_spec (x : ℝ) (L : List ℝ) :
    ∀ s : ℕ,
      ∑ i ∈ Finset.range L.length, L.getD i 0 * chebT (s + 1 + i) x
        = (crenshawRec (2 * x) L).1 * chebT (s + 1) x
            - (crenshawRec (2 * x) L).2 * chebT s x := by
  induction L with
  | nil => intro s; simp [crenshawRec]
  | cons a L ih =>
      intro s
      rw [List.length_cons, Finset.sum_range_succ']
      have hre : ∀ i ∈ Finset.range L.length,
          (a :: L).getD (i + 1) 0 * chebT (s + 1 + (i + 1)) x
            = L.getD i 0 * chebT (s + 1 + 1 + i) x := by
        intro i _
        have : s + 1 + (i + 1) = s + 1 + 1 + i := by omega
        rw [this]
        rfl
      rw [Finset.sum_congr rfl hre, ih (s + 1)]
      have hrec : chebT (s + 1 + 1) x = 2 * x * chebT (s + 1) x - chebT s x :=
        chebT_two_step s x
      simp only [crenshawRec, crenshawStep, List.getD_cons_zero, Nat.add_zero]
      rw [hrec]
      ring

/-- What the Crenshaw evaluation of `cheby_profile` computes: the
Chebyshev series with the leading coefficient halved, at `x = 2*t - 1`. -/
theorem crenshawPoint_eq (c0 : ℝ) (rest : List ℝ) (t : ℝ) :
    crenshawPoint (c0 :: rest) t
      = 0.5 * c0
          + ∑ i ∈ Finset.range rest.length, rest.getD i 0 * chebT (i + 1) (2 * t - 1) := by
  have hx : (4 : ℝ) * t - 2 = 2 * (2 * t - 1) := by ring
  have h := crenshawRec_spec (2 * t - 1) rest 0
  simp only [zero_add] at h
  have hsum : ∀ i ∈ Finset.range rest.length,
      rest.getD i 0 * chebT (1 + i) (2 * t - 1)
        = rest.getD i 0 * chebT (i + 1) (2 * t - 1) := by
    intro i _
    rw [Nat.add_comm 1 i]
  rw [Finset.sum_congr rfl hsum] at h
  simp only [crenshawPoint, crenshawLoop_eq_rec, List.drop_succ_cons, List.drop_zero,
    List.headD_cons, hx, chebT] at *
  rw [h]
  ring

/-- The same, written as the full Chebyshev sum minus half the leading
coefficient. -/
theorem crenshawPoint_sum (c : List ℝ) (hc : c ≠ []) (t : ℝ) :
    crenshawPoint c t
      = (∑ j ∈ Finset.range c.length, c.getD j 0 * chebT j (2 * t - 1))
          - 0.5 * c.headD 0 := by
  obtain ⟨c0, rest, rfl⟩ := List.exists_cons_of_ne_nil hc
  rw [crenshawPoint_eq, List.length_cons, Finset.sum_range_succ']
  simp only [List.getD_cons_succ, List.getD_cons_zero, List.headD_cons, chebT]
  ring

/-! ## Claims -/

/-- C8: for an empty control sequence, `cheby_profile([], t, method)`
returns an all-zero sequence with the same shape as the coordinate array
`t`, for every coordinate array and every method tag, with no coefficient
derivation performed. -/
theorem claim_C8 (t : List ℝ) (method : String) :
    cheby_profile [] t method = t.map (fun _ => (0 : ℝ))
      ∧ (cheby_profile [] t method).length = t.length := by
  constructor
  · simp [cheby_profile]
  · simp [cheby_profile]

/-- C2 counterexample: `cheby_profile([1,0,1], [0], 'direct')` returns
`1.5`, not the value `2` the claim asserts: the Crenshaw recursion used
by the source weighs the leading coefficient by one half. -/
theorem claim_C2_counterexample :
    cheby_profile [1, 0, 1] [0] "direct" ≠ [2]
      ∧ cheby_profile [1, 0, 1] [0] "direct" = [1.5] := by
  have h : cheby_profile [1, 0, 1] [0] "direct" = [1.5] := by
    simp [cheby_profile, crenshawPoint, crenshawLoop, crenshawStep]
    norm_num
  refine ⟨?_, h⟩
  rw [h]
  intro hcontra
  have : (1.5 : ℝ) = 2 := by injection hcontra
  norm_num at this

/-- C2 amended: evaluating `cheby_profile` with coefficients
`c = [1, 0, 1]` and method `'direct'` at the single coordinate `t = 0`
returns `1.5 = 0.5*c0 + T2(-1)`: direct evaluation of
`0.5*1 + (2*(2t-1)^2 - 1)` at `t = 0`, the leading coefficient
contributing only half its value. -/
theorem claim_C2_amended :
    cheby_profile [1, 0, 1] [0] "direct" = [0.5 * 1 + (2 * (2 * 0 - 1) ^ 2 - 1)] := by
  simp [cheby_profile, crenshawPoint, crenshawLoop, crenshawStep]
  norm_num

/-- C10: for every non-empty coefficient list `c` and coordinate array
`ts`, method `'direct'` returns at each coordinate `t` the value
`sum_j c_j * T_j(2t-1) - 0.5*c_0`: the leading coefficient contributes
only half its value. -/
theorem claim_C10 (c : List ℝ) (ts : List ℝ) (hc : c ≠ []) :
    cheby_profile c ts "direct"
      = ts.map fun t =>
          (∑ j ∈ Finset.range c.length, c.getD j 0 * chebT j (2 * t - 1))
            - 0.5 * c.headD 0 := by
  have hlen : c.length ≠ 0 := fun h => hc (List.eq_nil_of_length_eq_zero h)
  have hd : cheby_profile c ts "direct" = ts.map (crenshawPoint c) := by
    simp [cheby_profile, hlen]
  rw [hd]
  exact List.map_congr_left fun t _ => crenshawPoint_sum c hc t

/-- C10 witness: the formula evaluated at `c = [1,0,1]`, `ts = [0]`. -/
theorem claim_C10_witness :
    cheby_profile [1, 0, 1] [0] "direct"
      = [chebT 0 (-1) + 0 * chebT 1 (-1) + 1 * chebT 2 (-1) - 0.5 * 1] := by
  have h := claim_C10 [1, 0, 1] [0] (by simp)
  rw [h]
  norm_num [Finset.sum_range_succ]

/-- C9: `log_density` over a population of size `N` returns exactly `N`
results, in input order, the `i`-th being `-nllf` of the `i`-th input
vector. -/
theorem claim_C9 (nllf : List ℝ → ℝ) (pop : List (List ℝ)) :
    (log_density nllf pop).length = pop.length
      ∧ ∀ i, i < pop.length →
          (log_density nllf pop).getD i 0 = -nllf (pop.getD i []) := by
  constructor
  · simp [log_density]
  · intro i hi
    have hi2 : i < (log_density nllf pop).length := by simpa [log_density] using hi
    rw [List.getD_eq_getElem _ _ hi2, List.getD_eq_getElem _ _ hi]
    simp [log_density]

/-- C9 witness: a concrete population of two vectors. -/
theorem claim_C9_witness :
    (log_density (fun l => l.sum) [[1], [2, 3]]).length = 2
      ∧ (log_density (fun l => l.sum) [[1], [2, 3]]).getD 1 0 = -(5 : ℝ) := by
  have h := claim_C9 (fun l => l.sum) [[1], [2, 3]]
  refine ⟨by simpa using h.1, ?_⟩
  have h2 := h.2 1 (by norm_num)
  rw [h2]
  norm_num

/-- C4 counterexample: for a density function returning `-1` (a
non-positive value), `Density.nllf` returns `nan` (`numpy.log` of a
negative number), not `+infinity` as the claim asserts. -/
theorem claim_C4_counterexample :
    ((-1 : ℝ) ≤ 0)
      ∧ Density.nllf (fun _ => (-1 : ℝ)) [] ≠ some ⊤
      ∧ Density.nllf (fun _ => (-1 : ℝ)) [] = none := by
  refine ⟨by norm_num, ?_, ?_⟩ <;> simp [Density.nllf, numpy_neg_log]

/-- C4 amended: at an input where the user density function returns
zero, `Density.nllf` returns `+infinity` without raising; at an input
where it returns a negative value, it returns `nan` without raising. -/
theorem claim_C4_amended (f : List ℝ → ℝ) (x : List ℝ) :
    (f x = 0 → Density.nllf f x = some ⊤)
      ∧ (f x < 0 → Density.nllf f x = none) := by
  constructor
  · intro h
    simp [Density.nllf, numpy_neg_log, h]
  · intro h
    simp [Density.nllf, numpy_neg_log, h, not_lt.mpr h.le, h.ne]

/-- C4 witness: the two branches at concrete density functions. -/
theorem claim_C4_witness :
    Density.nllf (fun _ => (0 : ℝ)) [] = some ⊤
      ∧ Density.nllf (fun _ => (-2 : ℝ)) [] = none :=
  ⟨(claim_C4_amended (fun _ => (0 : ℝ)) []).1 rfl,
   (claim_C4_amended (fun _ => (-2 : ℝ)) []).2 (by norm_num)⟩

/-- C1 counterexample: for the single-component mixture
`Mixture(M, 1.0)` with `M.nllf == 0`, the first evaluation returns
`M.nllf(x) = 0` but the second evaluation of the same instance returns
`+infinity`: `self.pairs = zip(models, weights)` is a single-use
iterator, so the second pass sees an empty sequence and computes
`-log(0/1)`.  The claimed identity therefore does not hold on every
evaluation. -/
theorem claim_C1_counterexample :
    Mixture_init [MixArg.model (fun _ => (0 : ℝ)), MixArg.scalar 1]
        = .ok ⟨[(fun _ => (0 : ℝ), 1)], false, 1⟩
      ∧ (Mixture_nllf ⟨[(fun _ => (0 : ℝ), 1)], false, 1⟩ []).1 = some ((0 : ℝ) : EReal)
      ∧ (Mixture_nllf (Mixture_nllf ⟨[(fun _ => (0 : ℝ), 1)], false, 1⟩ []).2 []).1 = some ⊤
      ∧ (⊤ : EReal) ≠ ((0 : ℝ) : EReal) := by
  refine ⟨?_, ?_, ?_, ?_⟩
  · simp [Mixture_init, sliceEven, sliceOdd, MixArg.hasNllf, MixArg.isscalar,
      MixArg.modelFn, MixArg.scalarVal]
  · have hpos : (0 : ℝ) < (1 * Real.exp (-(0 : ℝ)) + 0) / 1 := by
      simp [Real.exp_pos]
    simp [Mixture_nllf, numpy_neg_log, hpos]
  · simp [Mixture_nllf, numpy_neg_log]
  · intro h
    exact (EReal.coe_ne_top 0) h.symm

/-- C1 amended: for `Mixture(M, 1.0)` the identity
`nllf(x) == M.nllf(x)` holds on the FIRST evaluation only; every later
evaluation of the same instance finds the pair iterator drained and
returns `+infinity` (`-log(0/1)`). -/
theorem claim_C1_amended (f : List ℝ → ℝ) (x : List ℝ) (s : MixtureState)
    (h : Mixture_init [MixArg.model f, MixArg.scalar 1] = .ok s) :
    (Mixture_nllf s x).1 = some ((f x : ℝ) : EReal)
      ∧ (Mixture_nllf (Mixture_nllf s x).2 x).1 = some ⊤ := by
  have hinit : Mixture_init [MixArg.model f, MixArg.scalar 1]
      = .ok ⟨[(f, 1)], false, 1⟩ := by
    simp [Mixture_init, sliceEven, sliceOdd, MixArg.hasNllf, MixArg.isscalar,
      MixArg.modelFn, MixArg.scalarVal]
  rw [hinit] at h
  have hs : s = ⟨[(f, 1)], false, 1⟩ := by
    cases h
    rfl
  subst hs
  constructor
  · have hpos : (0 : ℝ) < (1 * Real.exp (-f x) + 0) / 1 := by
      simp [Real.exp_pos]
    simp [Mixture_nllf, numpy_neg_log, hpos, Real.log_exp, Real.exp_pos]
  · simp [Mixture_nllf, numpy_neg_log]

/-- C1 witness: the amended theorem applied to the constant model
`M.nllf == 3` at `x = []`. -/
theorem claim_C1_witness :
    (Mixture_nllf ⟨[(fun _ => (3 : ℝ), 1)], false, 1⟩ []).1 = some ((3 : ℝ) : EReal) :=
  (claim_C1_amended (fun _ => (3 : ℝ)) [] ⟨[(fun _ => (3 : ℝ), 1)], false, 1⟩
    (by simp [Mixture_init, sliceEven, sliceOdd, MixArg.hasNllf, MixArg.isscalar,
      MixArg.modelFn, MixArg.scalarVal])).1

theorem sliceEven_length {α : Type _} : ∀ l : List α, (sliceEven l).length = (l.length + 1) / 2
  | [] => by simp [sliceEven]
  | [_] => by simp [sliceEven]
  | _ :: _ :: rest => by
      simp only [sliceEven, List.length_cons, sliceEven_length rest]
      omega

theorem sliceOdd_length {α : Type _} (l : List α) : (sliceOdd l).length = l.length / 2 := by
  cases l with
  | nil => simp [sliceOdd, sliceEven]
  | cons a rest =>
      simp only [sliceOdd, List.tail_cons, List.length_cons, sliceEven_length rest]

theorem filterMap_modelFn_length :
    ∀ l : List MixArg, l.all MixArg.hasNllf = true →
      (l.filterMap MixArg.modelFn).length = l.length := by
  intro l
  induction l with
  | nil => intro; rfl
  | cons a rest ih =>
      intro h
      simp only [List.all_cons, Bool.and_eq_true] at h
      cases a with
      | model f => simp [MixArg.modelFn, ih h.2]
      | scalar w => simp [MixArg.hasNllf] at h
      | other => simp [MixArg.hasNllf] at h

theorem filterMap_scalarVal_length :
    ∀ l : List MixArg, l.all MixArg.isscalar = true →
      (l.filterMap MixArg.scalarVal).length = l.length := by
  intro l
  induction l with
  | nil => intro; rfl
  | cons a rest ih =>
      intro h
      simp only [List.all_cons, Bool.and_eq_true] at h
      cases a with
      | model f => simp [MixArg.isscalar] at h
      | scalar w => simp [MixArg.scalarVal, ih h.2]
      | other => simp [MixArg.isscalar] at h

/-- C7 counterexample: `Mixture(M, 0.0)` passes every constructor check
(even length, model has `nllf`, weight is a scalar) and constructs
successfully with weight sum `0`, so a successfully constructed Mixture
need not have weight sum `> 0`. -/
theorem claim_C7_counterexample :
    Mixture_init [MixArg.model (fun _ => (0 : ℝ)), MixArg.scalar 0]
        = .ok ⟨[(fun _ => (0 : ℝ), 0)], false, 0⟩
      ∧ ¬ ((0 : ℝ) > 0) := by
  constructor
  · simp [Mixture_init, sliceEven, sliceOdd, MixArg.hasNllf, MixArg.isscalar,
      MixArg.modelFn, MixArg.scalarVal]
  · norm_num

/-- C7 amended: `Mixture` construction checks its invariants eagerly and
raises `TypeError` whenever the argument list has odd length, a model
position lacks `nllf`, or a weight position is not a scalar; a
successfully constructed Mixture stores `len(args)/2` model/weight pairs
(an unconsumed iterator) and the weight sum — but nothing enforces at
least one pair or a positive weight sum. -/
theorem claim_C7_amended (args : List MixArg) :
    ((args.length % 2 ≠ 0
        ∨ ¬((sliceEven args).all MixArg.hasNllf)
        ∨ ¬((sliceOdd args).all MixArg.isscalar)) →
      Mixture_init args = .error .typeError)
      ∧ (∀ s, Mixture_init args = .ok s →
          s.pairs.length = args.length / 2
            ∧ s.consumed = false
            ∧ s.weight = ((sliceOdd args).filterMap MixArg.scalarVal).sum) := by
  constructor
  · intro hbad
    simp only [Mixture_init, if_pos hbad]
  · intro s hs
    by_cases hbad : args.length % 2 ≠ 0
        ∨ ¬((sliceEven args).all MixArg.hasNllf)
        ∨ ¬((sliceOdd args).all MixArg.isscalar)
    · rw [Mixture_init, if_pos hbad] at hs
      exact absurd hs (by simp)
    · rw [Mixture_init, if_neg hbad] at hs
      push_neg at hbad
      obtain ⟨heven, hmod, hsc⟩ := hbad
      have hmod2 : (sliceEven args).all MixArg.hasNllf = true := by
        revert hmod
        cases (sliceEven args).all MixArg.hasNllf <;> simp
      have hsc2 : (sliceOdd args).all MixArg.isscalar = true := by
        revert hsc
        cases (sliceOdd args).all MixArg.isscalar <;> simp
      have hs2 : s = ⟨List.zip ((sliceEven args).filterMap MixArg.modelFn)
          ((sliceOdd args).filterMap MixArg.scalarVal), false,
          ((sliceOdd args).filterMap MixArg.scalarVal).sum⟩ := by
        cases hs
        rfl
      subst hs2
      refine ⟨?_, rfl, rfl⟩
      simp only [List.length_zip, filterMap_modelFn_length _ hmod2,
        filterMap_scalarVal_length _ hsc2, sliceEven_length, sliceOdd_length]
      omega

/-- C7 witness: an odd argument list is rejected; `Mixture(M, 2.0)`
constructs with weight sum `2`. -/
theorem claim_C7_witness :
    Mixture_init [MixArg.model (fun _ => (0 : ℝ))] = .error .typeError
      ∧ (2 : ℝ) = ((sliceOdd [MixArg.model (fun _ => (0 : ℝ)), MixArg.scalar 2]).filterMap
          MixArg.scalarVal).sum := by
  constructor
  · exact (claim_C7_amended [MixArg.model (fun _ => (0 : ℝ))]).1 (by simp)
  · have h := (claim_C7_amended [MixArg.model (fun _ => (0 : ℝ)), MixArg.scalar 2]).2
      ⟨[(fun _ => (0 : ℝ), 2)], false, 2⟩
      (by simp [Mixture_init, sliceEven, sliceOdd, MixArg.hasNllf, MixArg.isscalar,
        MixArg.modelFn, MixArg.scalarVal])
    exact h.2.2

/-- C5 counterexample: constructing a `Simulation` without data fails at
construction time, but with the `TypeError`/`AttributeError` numpy
raises applying `log` to `ones_like(None)` (an object-dtype array), not
with a `ConfigurationError` — no such class exists in the source. -/
theorem claim_C5_counterexample :
    Simulation_init (fun _ => (1, 1)) none 1 0 = .error .ufuncTypeError
      ∧ PyErr.ufuncTypeError ≠ PyErr.configurationError :=
  ⟨rfl, by decide⟩

/-- C5 amended: constructing a `Simulation` without data (data absent)
fails at construction time, before any call to `nllf` or `log_density`,
with the `TypeError`/`AttributeError` that `numpy.log` raises on the
object-dtype array `ones_like(None)` (not with a `ConfigurationError`
class, which the source does not define). -/
theorem claim_C5_amended (pars : ℝ → ℝ × ℝ) (sigma gamma : ℝ) :
    Simulation_init pars none sigma gamma = .error .ufuncTypeError := rfl

/-! ## The Cholesky column recursion: success implies positive definiteness -/

theorem cholCols_length (A : ℕ → ℕ → ℝ) : ∀ m, (cholCols A m).length = m
  | 0 => rfl
  | m + 1 => by simp [cholCols, cholCols_length A m]

theorem cholCols_getD (A : ℕ → ℕ → ℝ) :
    ∀ m k, k < m →
      (cholCols A m).getD k (fun _ => 0) = cholNewCol A (cholCols A k) k
  | 0, k, h => absurd h (Nat.not_lt_zero k)
  | m + 1, k, h => by
      rw [cholCols]
      rcases Nat.lt_or_ge k m with hk | hk
      · rw [List.getD_append _ _ _ _ (by rw [cholCols_length]; exact hk)]
        exact cholCols_getD A m k hk
      · have hkm : k = m := by omega
        subst hkm
        rw [List.getD_append_right _ _ _ _ (by rw [cholCols_length])]
        rw [cholCols_length]
        simp

theorem cholCols_getD_entry (A : ℕ → ℕ → ℝ) (m k : ℕ) (h : k < m) (i : ℕ) :
    ((cholCols A m).getD k fun _ => 0) i = cholEntry A i k := by
  rw [cholCols_getD A m k h, cholEntry,
    cholCols_getD A (k + 1) k (Nat.lt_succ_self k)]

theorem cholEntry_def (A : ℕ → ℕ → ℝ) (i j : ℕ) :
    cholEntry A i j =
      if i < j then 0
      else if i = j then Real.sqrt (cholPivot A j)
      else (A i j - ∑ k ∈ Finset.range j, cholEntry A i k * cholEntry A j k)
            / Real.sqrt (cholPivot A j) := by
  rw [cholEntry, cholCols_getD A (j + 1) j (Nat.lt_succ_self j)]
  simp only [cholNewCol]
  have hsq : ∀ i2 : ℕ,
      (∑ k ∈ Finset.range j, ((cholCols A j).getD k fun _ => 0) i2
          * ((cholCols A j).getD k fun _ => 0) j)
        = ∑ k ∈ Finset.range j, cholEntry A i2 k * cholEntry A j k := by
    intro i2
    refine Finset.sum_congr rfl fun k hk => ?_
    rw [cholCols_getD_entry A j k (Finset.mem_range.mp hk) i2,
      cholCols_getD_entry A j k (Finset.mem_range.mp hk) j]
  have hsq2 :
      (∑ k ∈ Finset.range j, (((cholCols A j).getD k fun _ => 0) j) ^ 2)
        = ∑ k ∈ Finset.range j, cholEntry A j k ^ 2 := by
    refine Finset.sum_congr rfl fun k hk => ?_
    rw [cholCols_getD_entry A j k (Finset.mem_range.mp hk) j]
  rw [hsq2, hsq i]
  rfl

theorem cholEntry_upper (A : ℕ → ℕ → ℝ) {i j : ℕ} (h : i < j) :
    cholEntry A i j = 0 := by
  rw [cholEntry_def, if_pos h]

theorem cholEntry_diag (A : ℕ → ℕ → ℝ) (j : ℕ) :
    cholEntry A j j = Real.sqrt (cholPivot A j) := by
  rw [cholEntry_def, if_neg (lt_irrefl j), if_pos rfl]

theorem cholEntry_lower (A : ℕ → ℕ → ℝ) {i j : ℕ} (h : j < i) :
    cholEntry A i j
      = (A i j - ∑ k ∈ Finset.range j, cholEntry A i k * cholEntry A j k)
          / Real.sqrt (cholPivot A j) := by
  rw [cholEntry_def, if_neg (by omega), if_neg (by omega)]

theorem cholEntry_diag_pos (A : ℕ → ℕ → ℝ) (j : ℕ) (h : 0 < cholPivot A j) :
    0 < cholEntry A j j := by
  rw [cholEntry_diag]
  exact Real.sqrt_pos.mpr h

/-- The defining property of the factor: for `j ≤ i < n` and every
pivot positive, row `i` dot row `j` of the factor reproduces `A i j`. -/
theorem chol_row_dot (A : ℕ → ℕ → ℝ) (n : ℕ) (hpos : ∀ j < n, 0 < cholPivot A j)
    (i j : ℕ) (hin : i < n) (hji : j ≤ i) :
    ∑ k ∈ Finset.range n, cholEntry A i k * cholEntry A j k = A i j := by
  have hjn : j < n := lt_of_le_of_lt hji hin
  have hsplit :
      (∑ k ∈ Finset.range (j + 1), cholEntry A i k * cholEntry A j k)
          + ∑ k ∈ Finset.Ico (j + 1) n, cholEntry A i k * cholEntry A j k
        = ∑ k ∈ Finset.range n, cholEntry A i k * cholEntry A j k := by
    rw [Finset.range_eq_Ico]
    exact Finset.sum_Ico_consecutive _ (Nat.zero_le _) hjn
  have htail : ∑ k ∈ Finset.Ico (j + 1) n, cholEntry A i k * cholEntry A j k = 0 := by
    refine Finset.sum_eq_zero fun k hk => ?_
    have : j < k := (Finset.mem_Ico.mp hk).1
    rw [cholEntry_upper A this, mul_zero]
  have hpivj : 0 < cholPivot A j := hpos j hjn
  rw [← hsplit, htail, add_zero, Finset.sum_range_succ]
  rcases Nat.lt_or_ge j i with hlt | hge
  · rw [cholEntry_lower A hlt, cholEntry_diag A j,
      div_mul_cancel₀ _ (ne_of_gt (Real.sqrt_pos.mpr hpivj))]
    ring
  · have hij : i = j := le_antisymm (by omega) hji
    subst hij
    rw [cholEntry_diag A i, Real.mul_self_sqrt hpivj.le]
    have hsq : (∑ k ∈ Finset.range i, cholEntry A i k * cholEntry A i k)
        = ∑ k ∈ Finset.range i, cholEntry A i k ^ 2 := by
      refine Finset.sum_congr rfl fun k _ => ?_
      ring
    rw [hsq]
    simp only [cholPivot]
    ring

/-- The lower-triangular factor of the padded matrix, restricted to
`Fin n`. -/
def cholFactor (n : ℕ) (A : Matrix (Fin n) (Fin n) ℝ) : Matrix (Fin n) (Fin n) ℝ :=
  Matrix.of fun i j : Fin n => cholEntry (padMat n A) i j

theorem padMat_apply {n : ℕ} (A : Matrix (Fin n) (Fin n) ℝ) (i j : Fin n) :
    padMat n A i j = A i j := by
  simp [padMat]

/-- When every pivot is positive, the factorization reproduces a
symmetric `A`: `A = L * Lᵀ`. -/
theorem chol_factorization {n : ℕ} (A : Matrix (Fin n) (Fin n) ℝ) (hA : A.IsSymm)
    (hpos : ∀ j < n, 0 < cholPivot (padMat n A) j) :
    A = cholFactor n A * (cholFactor n A)ᵀ := by
  ext i j
  rw [Matrix.mul_apply]
  simp only [Matrix.transpose_apply, cholFactor, Matrix.of_apply]
  have key : ∀ i2 j2 : Fin n, (j2 : ℕ) ≤ i2 →
      ∑ k : Fin n, cholEntry (padMat n A) i2 k * cholEntry (padMat n A) j2 k = A i2 j2 := by
    intro i2 j2 h
    have := chol_row_dot (padMat n A) n hpos i2 j2 i2.isLt h
    rw [padMat_apply] at this
    rw [← this, ← Fin.sum_univ_eq_sum_range
      (fun k => cholEntry (padMat n A) i2 k * cholEntry (padMat n A) j2 k) n]
  rcases le_or_lt (j : ℕ) (i : ℕ) with hji | hij
  · exact (key i j hji).symm
  · have h1 : A i j = A j i := by
      conv_lhs => rw [← hA]
      rfl
    rw [h1, ← key j i (le_of_lt hij)]
    exact Finset.sum_congr rfl fun k _ => mul_comm _ _

/-- Back substitution: a lower-triangular factor with positive diagonal
has an injective transpose action, so `Lᵀ x = 0` forces `x = 0`. -/
theorem chol_transpose_mulVec_eq_zero {n : ℕ} (A : Matrix (Fin n) (Fin n) ℝ)
    (hpos : ∀ j < n, 0 < cholPivot (padMat n A) j)
    (x : Fin n → ℝ) (hw : (cholFactor n A)ᵀ *ᵥ x = 0) : x = 0 := by
  have hstep : ∀ m : ℕ, ∀ j : Fin n, n ≤ (j : ℕ) + m → x j = 0 := by
    intro m
    induction m with
    | zero => intro j hj; exact absurd hj (by omega)
    | succ m ih =>
        intro j hj
        rcases Nat.lt_or_ge ((j : ℕ) + m) n with hlt | hge
        · have hwj : ((cholFactor n A)ᵀ *ᵥ x) j = 0 := by rw [hw]; rfl
          rw [Matrix.mulVec, Matrix.dotProduct] at hwj
          simp only [Matrix.transpose_apply, cholFactor, Matrix.of_apply] at hwj
          rw [Finset.sum_eq_single j] at hwj
          · have hdiag : 0 < cholEntry (padMat n A) j j :=
              cholEntry_diag_pos _ _ (hpos j j.isLt)
            exact (mul_eq_zero.mp hwj).resolve_left (ne_of_gt hdiag)
          · intro k _ hkj
            rcases Nat.lt_or_ge (k : ℕ) (j : ℕ) with hk | hk
            · rw [cholEntry_upper (padMat n A) hk, zero_mul]
            · have hk2 : (j : ℕ) < (k : ℕ) := by
                rcases Nat.lt_or_ge (j : ℕ) (k : ℕ) with h2 | h2
                · exact h2
                · exact absurd (Fin.ext (by omega) : k = j) hkj
              have : x k = 0 := ih k (by omega)
              rw [this, mul_zero]
          · intro hj2
            exact absurd (Finset.mem_univ j) hj2
        · exact ih j hge
  funext j
  exact hstep n j (by omega)

/-- Success of the pivot recursion on a symmetric matrix implies
positive definiteness. -/
theorem chol_posDef {n : ℕ} (A : Matrix (Fin n) (Fin n) ℝ) (hA : A.IsSymm)
    (hpos : ∀ j < n, 0 < cholPivot (padMat n A) j) : A.PosDef := by
  constructor
  · rw [Matrix.IsHermitian, Matrix.conjTranspose_eq_transpose_of_trivial]
    exact hA
  · intro x hx
    have hfact := chol_factorization A hA hpos
    have hstar : star x = x := by
      funext i
      simp
    have hvm : x ᵥ* cholFactor n A = (cholFactor n A)ᵀ *ᵥ x := by
      have h2 := Matrix.vecMul_transpose ((cholFactor n A)ᵀ) x
      rwa [Matrix.transpose_transpose] at h2
    rw [hstar, hfact, ← Matrix.mulVec_mulVec, Matrix.dotProduct_mulVec, hvm]
    set w := (cholFactor n A)ᵀ *ᵥ x with hwdef
    have hwne : w ≠ 0 := fun h0 =>
      hx (chol_transpose_mulVec_eq_zero A hpos x h0)
    obtain ⟨i0, hi0⟩ := Function.ne_iff.mp hwne
    rw [Matrix.dotProduct]
    refine Finset.sum_pos' (fun i _ => mul_self_nonneg (w i)) ⟨i0, Finset.mem_univ i0, ?_⟩
    exact mul_self_pos.mpr (by simpa using hi0)

/-- If `numpy.linalg.cholesky` succeeds on a symmetric matrix, the
matrix is positive definite. -/
theorem np_cholesky_some_posDef {n : ℕ} (A : Matrix (Fin n) (Fin n) ℝ)
    (hA : A.IsSymm) (r : Matrix (Fin n) (Fin n) ℝ)
    (h : np_cholesky A = some r) : A.PosDef := by
  by_cases hpos : ∀ j < n, 0 < cholPivot (padMat n A) j
  · exact chol_posDef A hA hpos
  · rw [np_cholesky, if_neg hpos] at h
    exact absurd h (by simp)

/-- C6 counterexample: constructing `MVNormal(mu, [[-1]])` (a
non-positive-definite covariance) fails eagerly at the Cholesky step,
but with `numpy.linalg.LinAlgError`, not with a `ConfigurationError` —
no such class exists in the source. -/
theorem claim_C6_counterexample :
    MVNormal_init (fun _ : Fin 1 => (0 : ℝ)) !![(-1 : ℝ)] = .error .linAlgError
      ∧ PyErr.linAlgError ≠ PyErr.configurationError := by
  constructor
  · have hpiv : cholPivot (padMat 1 !![(-1 : ℝ)]) 0 = -1 := by
      simp [cholPivot, padMat]
    have hcond : ¬ ∀ j < 1, 0 < cholPivot (padMat 1 !![(-1 : ℝ)]) j := by
      intro h
      have h0 := h 0 (by norm_num)
      rw [hpiv] at h0
      norm_num at h0
    have hnone : np_cholesky !![(-1 : ℝ)] = none := by
      rw [np_cholesky, if_neg hcond]
    simp [MVNormal_init, hnone]
  · decide

/-- C6 amended: constructing `MVNormal(mu, sigma)` with a symmetric
`sigma` that is not positive-definite fails at the Cholesky step during
construction, surfaced as `numpy.linalg.LinAlgError` (the source defines
no `ConfigurationError` class), and never defers the failure to `nllf`
evaluation: no `MVNState` is produced. -/
theorem claim_C6_amended {n : ℕ} (mu : Fin n → ℝ) (sigma : Matrix (Fin n) (Fin n) ℝ)
    (hsym : sigma.IsSymm) (hnpd : ¬ sigma.PosDef) :
    MVNormal_init mu sigma = .error .linAlgError := by
  cases hc : np_cholesky sigma with
  | none => simp [MVNormal_init, hc]
  | some r => exact absurd (np_cholesky_some_posDef sigma hsym r hc) hnpd

/-- C6 witness: the amended theorem at the concrete non-positive-definite
covariance `[[-1]]`. -/
theorem claim_C6_witness :
    MVNormal_init (fun _ : Fin 1 => (5 : ℝ)) !![(-1 : ℝ)] = .error .linAlgError := by
  refine claim_C6_amended _ _ ?_ ?_
  · show (!![(-1 : ℝ)])ᵀ = !![(-1 : ℝ)]
    ext i j
    fin_cases i
    fin_cases j
    rfl
  · intro h
    have h2 := h.2 (fun _ => 1) (by
      intro h0
      have h1 := congrFun h0 0
      norm_num at h1)
    have hval : Matrix.dotProduct (star fun _ : Fin 1 => (1 : ℝ))
        (!![(-1 : ℝ)] *ᵥ fun _ => 1) = -1 := by
      simp [Matrix.dotProduct, Matrix.mulVec, Fin.sum_univ_one]
    rw [hval] at h2
    norm_num at h2

/-! ## The interp method: DCT coefficients and exact node interpolation -/

theorem chebT_cos : ∀ (j : ℕ) (θ : ℝ), chebT j (Real.cos θ) = Real.cos (j * θ)
  | 0, θ => by simp [chebT]
  | 1, θ => by simp [chebT]
  | j + 2, θ => by
      have h1 := chebT_cos (j + 1) θ
      have h2 := chebT_cos j θ
      have key : Real.cos (((j : ℝ) + 2) * θ)
          = 2 * Real.cos θ * Real.cos (((j : ℝ) + 1) * θ) - Real.cos ((j : ℝ) * θ) := by
        have e1 : ((j : ℝ) + 2) * θ = ((j : ℝ) + 1) * θ + θ := by ring
        have e2 : (j : ℝ) * θ = ((j : ℝ) + 1) * θ - θ := by ring
        rw [e1, e2, Real.cos_add, Real.cos_sub]
        ring
      rw [chebT_two_step j (Real.cos θ), h1, h2]
      push_cast
      rw [key]

theorem getD_map_range (n : ℕ) (f : ℕ → ℝ) (j : ℕ) (h : j < n) :
    (((List.range n).map f).getD j 0) = f j := by
  rw [List.getD_eq_getElem _ _ (by simpa using h)]
  simp

theorem interpCoeffs_length (c : List ℝ) : (interpCoeffs c).length = c.length := by
  simp [interpCoeffs]

theorem sliceEven_getD {α : Type _} (d : α) :
    ∀ (c : List α) (k : ℕ), (sliceEven c).getD k d = c.getD (2 * k) d
  | [], k => by simp [sliceEven]
  | [a], k => by
      cases k with
      | zero => rfl
      | succ k =>
          rw [show 2 * (k + 1) = 2 * k + 1 + 1 by omega]
          simp [sliceEven]
  | a :: b :: rest, k => by
      cases k with
      | zero => rfl
      | succ k =>
          simp only [sliceEven]
          rw [show 2 * (k + 1) = 2 * k + 1 + 1 by omega]
          simp only [List.getD_cons_succ]
          exact sliceEven_getD d rest k

theorem sliceOdd_getD {α : Type _} (d : α) (c : List α) (k : ℕ) :
    (sliceOdd c).getD k d = c.getD (2 * k + 1) d := by
  cases c with
  | nil => simp [sliceOdd, sliceEven]
  | cons a rest =>
      simp only [sliceOdd, List.tail_cons, List.getD_cons_succ]
      exact sliceEven_getD d rest k

theorem dctReorder_length (c : List ℝ) : (dctReorder c).length = c.length := by
  simp only [dctReorder, List.length_append, List.length_reverse,
    sliceEven_length, sliceOdd_length]
  omega

theorem dctReorder_getD (c : List ℝ) (p : ℕ) (hp : p < c.length) :
    (dctReorder c).getD p 0
      = if 2 * p < c.length then c.getD (2 * p) 0
        else c.getD (2 * c.length - 1 - 2 * p) 0 := by
  by_cases h : 2 * p < c.length
  · rw [if_pos h, dctReorder,
      List.getD_append _ _ _ _ (by rw [sliceEven_length]; omega), sliceEven_getD]
  · rw [if_neg h, dctReorder,
      List.getD_append_right _ _ _ _ (by rw [sliceEven_length]; omega)]
    have hq : p - (sliceEven c).length < ((sliceOdd c).reverse).length := by
      rw [List.length_reverse, sliceOdd_length, sliceEven_length]
      omega
    rw [List.getD_eq_getElem _ _ hq, List.getElem_reverse,
      ← List.getD_eq_getElem _ 0 (by
        rw [sliceOdd_length] at *
        omega),
      sliceOdd_getD, sliceEven_length, sliceOdd_length]
    congr 1
    omega

theorem npFFT_phase_re (c : List ℝ) (hn : 0 < c.length) (j : ℕ) :
    (npFFT c.length (fun p => ((dctReorder c).getD p 0 : ℂ)) j
        * Complex.exp (-(π * j / (2 * c.length) : ℝ) * Complex.I)).re
      = ∑ p ∈ Finset.range c.length,
          (dctReorder c).getD p 0 * Real.cos (π * j * (4 * p + 1) / (2 * c.length)) := by
  have hne : ((c.length : ℝ)) ≠ 0 := Nat.cast_ne_zero.mpr (by omega)
  rw [npFFT, Finset.sum_mul, Complex.re_sum]
  refine Finset.sum_congr rfl fun p hp => ?_
  rw [mul_assoc, ← Complex.exp_add, ← add_mul, ← Complex.ofReal_neg, ← Complex.ofReal_neg,
    ← Complex.ofReal_add]
  have hang : (-(2 * π * j * p / c.length) + -(π * j / (2 * c.length)) : ℝ)
      = -(π * j * (4 * p + 1) / (2 * c.length)) := by
    field_simp
    ring
  rw [hang, Complex.re_ofReal_mul, Complex.exp_ofReal_mul_I_re, Real.cos_neg]

theorem interpCoeffs_getD (c : List ℝ) (hn : 0 < c.length) (j : ℕ) (hj : j < c.length) :
    (interpCoeffs c).getD j 0
      = 2 / (c.length : ℝ) * ∑ m ∈ Finset.range c.length,
          c.getD m 0 * Real.cos (π * j * (2 * m + 1) / (2 * c.length)) := by
  have hne : ((c.length : ℝ)) ≠ 0 := Nat.cast_ne_zero.mpr (by omega)
  simp only [interpCoeffs]
  rw [getD_map_range _ _ _ hj, npFFT_phase_re c hn j]
  congr 1
  refine Finset.sum_nbij'
    (fun p => if 2 * p < c.length then 2 * p else 2 * c.length - 1 - 2 * p)
    (fun m => if m % 2 = 0 then m / 2 else (2 * c.length - 1 - m) / 2)
    ?_ ?_ ?_ ?_ ?_
  · intro p hp
    simp only [Finset.mem_range] at *
    split_ifs <;> omega
  · intro m hm
    simp only [Finset.mem_range] at *
    split_ifs <;> omega
  · intro p hp
    simp only [Finset.mem_range] at hp
    dsimp only
    split_ifs <;> omega
  · intro m hm
    simp only [Finset.mem_range] at hm
    dsimp only
    split_ifs <;> omega
  · intro p hp
    simp only [Finset.mem_range] at hp
    dsimp only
    rw [dctReorder_getD c p hp]
    by_cases h : 2 * p < c.length
    · rw [if_pos h, if_pos h]
      congr 1
      congr 1
      push_cast
      ring
    · rw [if_neg h, if_neg h]
      have hcast : ((2 * c.length - 1 - 2 * p : ℕ) : ℝ)
          = 2 * (c.length : ℝ) - 1 - 2 * p := by
        rw [Nat.cast_sub (by omega), Nat.cast_sub (by omega)]
        push_cast
        ring
      have hang : π * j * (2 * ((2 * c.length - 1 - 2 * p : ℕ) : ℝ) + 1) / (2 * c.length)
          = (j : ℝ) * (2 * π) - π * j * (4 * p + 1) / (2 * c.length) := by
        rw [hcast]
        field_simp
        ring
      rw [hang, Real.cos_nat_mul_two_pi_sub]

/-- Real part of `(1 - z)⁻¹` for `z` on the unit circle, `z ≠ 1`. -/
theorem re_inv_one_sub (z : ℂ) (hz : Complex.normSq z = 1) (hz1 : z ≠ 1) :
    ((1 - z)⁻¹).re = 1 / 2 := by
  have hzapp := Complex.normSq_apply z
  rw [hz] at hzapp
  have hre : z.re ≠ 1 := by
    intro h
    apply hz1
    have him : z.im = 0 := by nlinarith [sq_nonneg z.im]
    exact Complex.ext h him
  have hns : Complex.normSq (1 - z) = 2 - 2 * z.re := by
    rw [Complex.normSq_apply]
    simp only [Complex.sub_re, Complex.sub_im, Complex.one_re, Complex.one_im]
    nlinarith [hzapp]
  have hd : (2 : ℝ) - 2 * z.re ≠ 0 := by
    intro h
    exact hre (by linarith)
  rw [Complex.inv_def, hns, Complex.mul_re]
  simp only [Complex.conj_re, Complex.conj_im, Complex.ofReal_re, Complex.ofReal_im,
    Complex.sub_re, Complex.one_re, mul_zero, sub_zero]
  field_simp
  ring

/-- The Dirichlet-kernel values the orthogonality argument needs:
`sum_{j<n} cos(j*a*pi/n)` is `n` when `2n | a`, `0` for even `a`
otherwise, and `1` for odd `a`. -/
theorem cos_geom_sum (n : ℕ) (hn : 0 < n) (a : ℤ) :
    ∑ jj ∈ Finset.range n, Real.cos (jj * (a * π / n))
      = if (2 * (n : ℤ)) ∣ a then (n : ℝ) else if a % 2 = 0 then 0 else 1 := by
  have hnne : ((n : ℝ)) ≠ 0 := Nat.cast_ne_zero.mpr (by omega)
  by_cases hdvd : (2 * (n : ℤ)) ∣ a
  · rw [if_pos hdvd]
    obtain ⟨q, hq⟩ := hdvd
    have hone : ∀ jj ∈ Finset.range n, Real.cos (jj * (a * π / n)) = 1 := by
      intro jj _
      have harg : (jj : ℝ) * (a * π / n) = ((jj * q : ℤ) : ℝ) * (2 * π) := by
        rw [hq]
        push_cast
        field_simp
        ring
      rw [harg, Real.cos_int_mul_two_pi]
    rw [Finset.sum_congr rfl hone]
    simp
  · rw [if_neg hdvd]
    set z := Complex.exp ((a * π / n : ℝ) * Complex.I) with hzdef
    have hz1 : z ≠ 1 := by
      intro h
      rw [hzdef, Complex.exp_eq_one_iff] at h
      obtain ⟨k, hk⟩ := h
      apply hdvd
      rw [show (k : ℂ) * (2 * π * Complex.I) = ((k : ℂ) * (2 * π)) * Complex.I by ring] at hk
      have h2 : ((a * π / n : ℝ) : ℂ) = (k : ℂ) * (2 * π) := by
        have := mul_right_cancel₀ Complex.I_ne_zero hk
        rw [this]
      have h3 : (a * π / n : ℝ) = (k : ℝ) * (2 * π) := by
        have h4 : ((a * π / n : ℝ) : ℂ) = (((k : ℝ) * (2 * π) : ℝ) : ℂ) := by
          rw [h2]
          push_cast
          ring
        exact_mod_cast h4
      have h5 : ((a : ℝ) - 2 * n * k) * π = 0 := by
        field_simp at h3
        linarith
      rcases mul_eq_zero.mp h5 with h6 | h6
      · have h7 : (a : ℝ) = ((2 * n * k : ℤ) : ℝ) := by
          push_cast
          linarith
        have h8 : a = 2 * n * k := by exact_mod_cast h7
        exact ⟨k, by omega⟩
      · exact absurd h6 Real.pi_ne_zero
    have habs : Complex.normSq z = 1 := by
      rw [hzdef, ← Complex.sq_abs, Complex.abs_exp_ofReal_mul_I]
      norm_num
    have hre : ∑ jj ∈ Finset.range n, Real.cos (jj * (a * π / n))
        = (∑ jj ∈ Finset.range n, z ^ jj).re := by
      rw [Complex.re_sum]
      refine Finset.sum_congr rfl fun jj _ => ?_
      rw [hzdef, ← Complex.exp_nat_mul]
      have harg : (jj : ℂ) * (((a * π / n : ℝ)) * Complex.I)
          = ((jj * (a * π / n) : ℝ) : ℂ) * Complex.I := by
        push_cast
        ring
      rw [harg, Complex.exp_ofReal_mul_I_re]
    have hzn : z ^ n = (-1 : ℂ) ^ a := by
      rw [hzdef, ← Complex.exp_nat_mul]
      have hnc : ((n : ℂ)) ≠ 0 := Nat.cast_ne_zero.mpr (by omega)
      have harg : (n : ℂ) * (((a * π / n : ℝ)) * Complex.I) = (a : ℂ) * (π * Complex.I) := by
        push_cast
        field_simp [hnc]
        ring
      rw [harg, Complex.exp_int_mul, Complex.exp_pi_mul_I]
    rw [hre, geom_sum_eq hz1 n, hzn]
    by_cases hpar : a % 2 = 0
    · rw [if_pos hpar]
      have heven : Even a := Int.even_iff.mpr hpar
      rw [heven.neg_one_zpow]
      simp
    · rw [if_neg hpar]
      have hodd : Odd a := Int.odd_iff.mpr (by omega)
      rw [hodd.neg_one_zpow]
      have hrw : ((-1 : ℂ) - 1) / (z - 1) = ((2 : ℝ) : ℂ) * (1 - z)⁻¹ := by
        rw [div_eq_mul_inv, show z - 1 = -(1 - z) by ring, inv_neg]
        push_cast
        ring
      rw [hrw, Complex.re_ofReal_mul, re_inv_one_sub z habs hz1]
      norm_num

/-- Discrete orthogonality of the node cosines:
`sum_{j<n} cos(pi*j*(2m+1)/(2n)) * cos(pi*j*(2k+1)/(2n))` is `(n+1)/2`
on the diagonal and `1/2` off it. -/
theorem cos_prod_sum (n : ℕ) (hn : 0 < n) (m k : ℕ) (hm : m < n) (hk : k < n) :
    ∑ j ∈ Finset.range n,
        Real.cos (π * j * (2 * m + 1) / (2 * n)) * Real.cos (π * j * (2 * k + 1) / (2 * n))
      = if m = k then ((n : ℝ) + 1) / 2 else 1 / 2 := by
  have hnne : ((n : ℝ)) ≠ 0 := Nat.cast_ne_zero.mpr (by omega)
  have hterm : ∀ j ∈ Finset.range n,
      Real.cos (π * j * (2 * m + 1) / (2 * n)) * Real.cos (π * j * (2 * k + 1) / (2 * n))
        = (Real.cos (j * ((((m : ℤ) + k + 1 : ℤ) : ℝ) * π / n))
            + Real.cos (j * ((((m : ℤ) - k : ℤ) : ℝ) * π / n))) / 2 := by
    intro j _
    have hXY : π * j * (2 * m + 1) / (2 * n) + π * j * (2 * k + 1) / (2 * n)
        = j * ((((m : ℤ) + k + 1 : ℤ) : ℝ) * π / n) := by
      push_cast
      field_simp
      ring
    have hXY2 : π * j * (2 * m + 1) / (2 * n) - π * j * (2 * k + 1) / (2 * n)
        = j * ((((m : ℤ) - k : ℤ) : ℝ) * π / n) := by
      push_cast
      field_simp
      ring
    rw [← hXY, ← hXY2, Real.cos_add, Real.cos_sub]
    ring
  rw [Finset.sum_congr rfl hterm, ← Finset.sum_div, Finset.sum_add_distrib,
    cos_geom_sum n hn ((m : ℤ) + k + 1), cos_geom_sum n hn ((m : ℤ) - k)]
  have ha1pos : (0 : ℤ) < (m : ℤ) + k + 1 := by omega
  have ha1lt : (m : ℤ) + k + 1 < 2 * n := by omega
  have hnd1 : ¬ (2 * (n : ℤ)) ∣ ((m : ℤ) + k + 1) := by
    intro hd
    have := Int.le_of_dvd ha1pos hd
    omega
  rw [if_neg hnd1]
  by_cases hmk : m = k
  · subst hmk
    rw [if_pos rfl]
    have hd0 : (2 * (m : ℤ)) - (2 * m) = 0 := by ring
    rw [show (m : ℤ) - m = 0 by ring, if_pos (dvd_zero _)]
    have hodd : ((m : ℤ) + m + 1) % 2 ≠ 0 := by omega
    rw [if_neg hodd]
    ring
  · rw [if_neg hmk]
    have ha2ne : (m : ℤ) - k ≠ 0 := by
      intro h
      apply hmk
      omega
    have hnd2 : ¬ (2 * (n : ℤ)) ∣ ((m : ℤ) - k) := by
      intro hd
      have habs2 : (2 * (n : ℤ)) ∣ |(m : ℤ) - k| := (dvd_abs _ _).mpr hd
      have hpos2 : (0 : ℤ) < |(m : ℤ) - k| := abs_pos.mpr ha2ne
      have := Int.le_of_dvd hpos2 habs2
      have hlt2 : |(m : ℤ) - k| < 2 * n := by
        rw [abs_lt]
        omega
      omega
    rw [if_neg hnd2]
    by_cases hp2 : ((m : ℤ) - k) % 2 = 0
    · rw [if_pos hp2, if_neg (by omega : ¬ ((m : ℤ) + k + 1) % 2 = 0)]
      ring
    · rw [if_neg hp2, if_pos (by omega : ((m : ℤ) + k + 1) % 2 = 0)]
      ring

/-- Evaluating the interp-derived coefficients at the `k`-th Chebyshev
node reproduces the `k`-th control value exactly. -/
theorem interp_node_eval (c : List ℝ) (hc : c ≠ []) (k : ℕ) (hk : k < c.length) :
    crenshawPoint (interpCoeffs c)
        ((Real.cos (π * (2 * k + 1) / (2 * c.length)) + 1) / 2)
      = c.getD k 0 := by
  have hn : 0 < c.length := List.length_pos.mpr hc
  have hne : ((c.length : ℝ)) ≠ 0 := Nat.cast_ne_zero.mpr (by omega)
  have hcoef_ne : interpCoeffs c ≠ [] := by
    intro h
    have h2 := interpCoeffs_length c
    rw [h] at h2
    simp at h2
    omega
  rw [crenshawPoint_sum (interpCoeffs c) hcoef_ne, interpCoeffs_length]
  have hx : 2 * ((Real.cos (π * (2 * k + 1) / (2 * c.length)) + 1) / 2) - 1
      = Real.cos (π * (2 * k + 1) / (2 * c.length)) := by
    ring
  rw [hx]
  have hhead : (interpCoeffs c).headD 0 = (interpCoeffs c).getD 0 0 := by
    cases interpCoeffs c with
    | nil => rfl
    | cons a l => rfl
  rw [hhead]
  have hsum : ∀ j ∈ Finset.range c.length,
      (interpCoeffs c).getD j 0 * chebT j (Real.cos (π * (2 * k + 1) / (2 * c.length)))
        = 2 / (c.length : ℝ) * ∑ m ∈ Finset.range c.length,
            c.getD m 0 * (Real.cos (π * j * (2 * m + 1) / (2 * c.length))
              * Real.cos (π * j * (2 * k + 1) / (2 * c.length))) := by
    intro j hj
    rw [interpCoeffs_getD c hn j (Finset.mem_range.mp hj), chebT_cos]
    have hjth : (j : ℝ) * (π * (2 * k + 1) / (2 * c.length))
        = π * j * (2 * k + 1) / (2 * c.length) := by
      ring
    rw [hjth, mul_assoc, Finset.sum_mul]
    congr 1
    refine Finset.sum_congr rfl fun m _ => ?_
    ring
  rw [Finset.sum_congr rfl hsum, ← Finset.mul_sum, Finset.sum_comm]
  have hfac : ∀ m ∈ Finset.range c.length,
      (∑ j ∈ Finset.range c.length,
          c.getD m 0 * (Real.cos (π * j * (2 * m + 1) / (2 * c.length))
            * Real.cos (π * j * (2 * k + 1) / (2 * c.length))))
        = c.getD m 0 * (if m = k then ((c.length : ℝ) + 1) / 2 else 1 / 2) := by
    intro m hm
    rw [← Finset.mul_sum, cos_prod_sum c.length hn m k (Finset.mem_range.mp hm) hk]
  rw [Finset.sum_congr rfl hfac, interpCoeffs_getD c hn 0 hn]
  have hcos0 : ∀ m ∈ Finset.range c.length,
      c.getD m 0 * Real.cos (π * ((0 : ℕ) : ℝ) * (2 * m + 1) / (2 * c.length))
        = c.getD m 0 := by
    intro m _
    simp
  rw [Finset.sum_congr rfl hcos0]
  have hsplit : ∀ m ∈ Finset.range c.length,
      c.getD m 0 * (if m = k then ((c.length : ℝ) + 1) / 2 else 1 / 2)
        = c.getD m 0 * (1 / 2)
            + (if m = k then c.getD m 0 * ((c.length : ℝ) / 2) else 0) := by
    intro m _
    by_cases h : m = k
    · rw [if_pos h, if_pos h]
      ring
    · rw [if_neg h, if_neg h]
      ring
  rw [Finset.sum_congr rfl hsplit, Finset.sum_add_distrib,
    Finset.sum_ite_eq' (Finset.range c.length) k
      (fun m => c.getD m 0 * ((c.length : ℝ) / 2)),
    if_pos (Finset.mem_range.mpr hk), ← Finset.sum_mul]
  field_simp
  ring

/-- C3: deriving coefficients with method `'interp'` and evaluating at
the normalized Chebyshev node coordinates reproduces the original
control values exactly over the reals, for every non-empty control
sequence. -/
theorem claim_C3 (control : List ℝ) (hc : control ≠ []) :
    cheby_profile control (chebyNodes control.length) "interp" = control := by
  have hn : 0 < control.length := List.length_pos.mpr hc
  have hprof : cheby_profile control (chebyNodes control.length) "interp"
      = (chebyNodes control.length).map (crenshawPoint (interpCoeffs control)) := by
    simp [cheby_profile, Nat.pos_iff_ne_zero.mp hn]
  rw [hprof]
  have hgoal : ∀ k, k < control.length →
      (((chebyNodes control.length).map (crenshawPoint (interpCoeffs control))).getD k 0)
        = crenshawPoint (interpCoeffs control)
            ((Real.cos (π * (2 * k + 1) / (2 * control.length)) + 1) / 2) := by
    intro k hk
    rw [chebyNodes, List.map_map, getD_map_range _ _ _ hk]
    simp [Function.comp]
  refine List.ext_getElem (by simp [chebyNodes]) fun k hk1 hk2 => ?_
  rw [← List.getD_eq_getElem _ 0 hk1, ← List.getD_eq_getElem control 0 hk2, hgoal k hk2]
  exact interp_node_eval control hc k hk2

/-- C3 witness: a one-point control sequence is reproduced at its node. -/
theorem claim_C3_witness :
    cheby_profile [(3 : ℝ)] (chebyNodes 1) "interp" = [(3 : ℝ)] :=
  claim_C3 [(3 : ℝ)] (by simp)

end

end Spec2Proof
